import Mathlib

/-!
Shallow embedding of the scene-continuation / glue pipeline
(`autocode.py`, `glue.py`) of the video_downloader repository.

Python strings are modelled as `List Char`, Python `int` as `ℤ`,
Python sets of ints as `Finset ℤ`, `None`-able values as `Option`,
and code that can raise (`int()` parsing) returns `Option`.
The filesystem is modelled by an existence oracle passed explicitly.
-/

namespace VideoDownloader

/-- Decimal digit value of a character, as used when modelling Python `int()`. -/
def digitVal (c : Char) : ℕ := c.toNat - '0'.toNat

/-- Fuel-indexed decimal rendering of a natural number (most significant digit
first).  Structural recursion on the fuel keeps it kernel-computable. -/
def natDigitsAux : ℕ → ℕ → List Char
  | 0, _ => []
  | fuel + 1, n =>
    if n < 10 then [Nat.digitChar n]
    else natDigitsAux fuel (n / 10) ++ [Nat.digitChar (n % 10)]

/-- Decimal rendering of a natural number, modelling Python `str` on a
non-negative `int` (no leading zeros, `0` renders as `"0"`). -/
def natToChars (n : ℕ) : List Char := natDigitsAux (n + 1) n

/-- Decimal rendering of an integer, modelling Python `str(int)`:
a leading `'-'` for negative values. -/
def pyIntRepr (n : ℤ) : List Char :=
  if n < 0 then '-' :: natToChars n.natAbs else natToChars n.toNat

/-- Accumulating decimal parser over a digit string, modelling the value
computed by Python `int()` on a digit sequence. -/
def parseDigits : ℕ → List Char → ℕ
  | a, [] => a
  | a, c :: cs => parseDigits (10 * a + digitVal c) cs

/-- Python `str.strip()`: remove leading and trailing whitespace. -/
def pyStrip (s : List Char) : List Char :=
  ((s.dropWhile Char.isWhitespace).reverse.dropWhile Char.isWhitespace).reverse

/-- Python `int(s)`: strip whitespace, optional sign, then a non-empty run of
decimal digits; any other shape raises `ValueError`, modelled as `none`.
(Underscore digit grouping is not modelled; no input here contains it.) -/
def pyInt? (s : List Char) : Option ℤ :=
  match pyStrip s with
  | [] => none
  | c :: rest =>
    if c = '-' then
      if rest ≠ [] ∧ rest.all Char.isDigit = true then
        some (-(parseDigits 0 rest : ℤ))
      else none
    else if c = '+' then
      if rest ≠ [] ∧ rest.all Char.isDigit = true then
        some ((parseDigits 0 rest : ℤ))
      else none
    else
      if (c :: rest).all Char.isDigit = true then
        some ((parseDigits 0 (c :: rest) : ℤ))
      else none

/-- Python `list(range(a, b + 1))`: the ascending list of integers in the
closed interval `[a, b]`, empty when `b < a`. -/
def rangeList (a b : ℤ) : List ℤ :=
  (List.range (b + 1 - a).toNat).map (fun (i : ℕ) => a + (i : ℤ))

/-- One comma-separated part of the loop body of `expand_range_str`
(`autocode.py`): strip, skip if empty, expand `a-b` via the first `-`,
otherwise parse a single integer.  A parse failure yields `none`. -/
def expandPart (part0 : List Char) : Option (List ℤ) :=
  if pyStrip part0 = [] then some []
  else if '-' ∈ pyStrip part0 then
    match (pyStrip part0).splitOn '-' with
    | [] => none
    | a :: rest =>
      match pyInt? a, pyInt? (List.intercalate ['-'] rest) with
      | some ia, some ib => some (rangeList ia ib)
      | _, _ => none
  else (pyInt? (pyStrip part0)).map (fun n => [n])

/-- The accumulation loop of `expand_range_str` over the comma-split parts;
the first failing part aborts the whole computation, like a raised
`ValueError`. -/
def expandParts : List (List Char) → Option (List ℤ)
  | [] => some []
  | p :: ps =>
    match expandPart p, expandParts ps with
    | some xs, some rest => some (xs ++ rest)
    | _, _ => none

/-- `expand_range_str` from `autocode.py`: expand a comma-separated range
string such as `2-4,6,8-9` into the list of covered integers. -/
def expand_range_str (rng : List Char) : Option (List ℤ) :=
  if rng = [] then some [] else expandParts (rng.splitOn ',')

/-- `sorted(set(nums))` from the head of `compress_ints`. -/
def sortedDedup (nums : List ℤ) : List ℤ := nums.toFinset.sort (· ≤ ·)

/-- One appended part of `compress_ints`:
`f"{start}-{prev}" if start != prev else f"{start}"`. -/
def render (start prev : ℤ) : List Char :=
  if start ≠ prev then pyIntRepr start ++ '-' :: pyIntRepr prev
  else pyIntRepr start

/-- The loop of `compress_ints` over `nums[1:]`, carrying the current run
`start..prev` and emitting a rendered part whenever the run breaks. -/
def compressGo (start prev : ℤ) : List ℤ → List (List Char)
  | [] => [render start prev]
  | n :: rest =>
    if n = prev + 1 then compressGo start n rest
    else render start prev :: compressGo n n rest

/-- `compress_ints` from `autocode.py`: compress a list of integers into
comma-separated range parts over `sorted(set(nums))`. -/
def compress_ints (nums : List ℤ) : List Char :=
  match sortedDedup nums with
  | [] => []
  | x :: rest => List.intercalate [','] (compressGo x x rest)

/-- The `end` computed by `continuation_scenes`:
`(next_base - 1) if next_base is not None else max_scene`. -/
def contStop (next_base : Option ℤ) (max_scene : ℤ) : ℤ :=
  match next_base with
  | some nb => nb - 1
  | none => max_scene

/-- `continuation_scenes` from `autocode.py`: the continuation window
`(base+1 .. next_base-1)` or `(base+1 .. max_scene)`, filtered by membership
in the on-disk scene set. -/
def continuation_scenes (existing : Finset ℤ) (base : ℤ)
    (next_base : Option ℤ) (max_scene : Option ℤ) : List ℤ :=
  match max_scene with
  | none => []
  | some m =>
    if existing = ∅ then []
    else
      let start := base + 1
      let stop := contStop next_base m
      if stop < start then []
      else (rangeList start stop).filter (fun n => n ∈ existing)

/-- One row of `main`'s per-clip loop (`autocode.py`): row `i` uses
`bases[i]` as base and `bases[i+1]` (when present) as `next_base`, i.e.
`next_bases = bases[1:] + [None]`. -/
def row_continuation (bases : List ℤ) (existing : Finset ℤ)
    (max_scene : Option ℤ) (i : ℕ) : List ℤ :=
  match bases.drop i with
  | [] => []
  | b :: rest => continuation_scenes existing b rest.head? max_scene

/-- `os.path.join(a, b)` for a relative `b`: insert a `/` separator unless
`a` is empty or already ends with one. -/
def pathJoin (a b : List Char) : List Char :=
  if a = [] then b
  else if a.getLast? = some '/' then a ++ b
  else a ++ '/' :: b

/-- `scene_jpg_path` from `autocode.py` at the default extension and
filename stem: `os.path.join(scenes_dir, f"scene_{n}_screenshot.jpg")`. -/
def scene_jpg_path (scenes_dir : List Char) (n : ℤ) : List Char :=
  pathJoin scenes_dir ("scene_".data ++ pyIntRepr n ++ "_screenshot.jpg".data)

/-- `choose_image_for_clip` from `autocode.py`; `exists_fs` models
`os.path.exists`. -/
def choose_image_for_clip (exists_fs : List Char → Bool)
    (scenes_dir : List Char) (base : ℤ) (cont_list : List ℤ) :
    Option (List Char) :=
  let p := scene_jpg_path scenes_dir base
  if exists_fs p then some p
  else
    match cont_list with
    | [] => none
    | c :: _ =>
      let p2 := scene_jpg_path scenes_dir c
      if exists_fs p2 then some p2 else none

/-- `img_paths.append(img or '')` in `main`: a missing image is recorded as
the empty string. -/
def img_path_entry (choice : Option (List Char)) : List Char :=
  choice.getD []

/-- The per-row guard of `main`'s labeling loop:
`if not img or not os.path.exists(img): llm_outputs.append(''); continue`,
else the labeling result for the row is recorded. -/
def llm_row_output (exists_fs : List Char → Bool)
    (img llm_text : List Char) : List Char :=
  if img = [] ∨ exists_fs img = false then [] else llm_text

/-- Deletion effect of one glue record in `glue.py`'s loop: the first number
of the row is the destination; when `ffmpeg` returns exit code `0`, every
other listed scene number whose file exists is removed; on a nonzero exit
code nothing is removed. -/
def glue_deletions (exists_fs : ℤ → Bool) (scene_numbers : List ℤ)
    (returncode : ℤ) : List ℤ :=
  match scene_numbers with
  | [] => []
  | destination_scene :: _ =>
    if returncode = 0 then
      scene_numbers.filter
        (fun n => n ≠ destination_scene ∧ exists_fs n = true)
    else []

/-- `write_glue_csv` from `autocode.py`, modelled as the list of written
lines: each line is `base` or `base,compress_ints(cont)`. -/
def write_glue_csv (bases : List ℤ) (cont_lists : List (List ℤ)) :
    List (List Char) :=
  (bases.zip cont_lists).map (fun p =>
    match p with
    | (base, cont) =>
      if cont ≠ [] then pyIntRepr base ++ ',' :: compress_ints cont
      else pyIntRepr base)

/-! Spec-side definitions, for comparison with the source embedding. -/

/-- Modelled from the spec: grouping loop producing the maximal consecutive
runs `(first, last)` of an ascending duplicate-free list, current run
`a..b`. -/
def spec_runs_go (a b : ℤ) : List ℤ → List (ℤ × ℤ)
  | [] => [(a, b)]
  | n :: rest =>
    if n = b + 1 then spec_runs_go a n rest
    else (a, b) :: spec_runs_go n n rest

/-- Modelled from the spec: the maximal consecutive runs of an ascending
duplicate-free list, in ascending order. -/
def spec_runs : List ℤ → List (ℤ × ℤ)
  | [] => []
  | x :: xs => spec_runs_go x x xs

/-- Modelled from the spec: a run is rendered `a-b` when its length is at
least 2 and `a` when it is a singleton. -/
def spec_render_run : ℤ × ℤ → List Char
  | (a, b) => if a = b then pyIntRepr a else pyIntRepr a ++ '-' :: pyIntRepr b

/-- Modelled from the spec: a comma-joined string of the rendered maximal
consecutive runs of the list's distinct values. -/
def spec_compress (nums : List ℤ) : List Char :=
  List.intercalate [','] ((spec_runs (sortedDedup nums)).map spec_render_run)

/-- A well-formed token of the range notation: a bare non-negative integer
or an `a-b` range. -/
inductive RangeTok where
  | single (n : ℕ)
  | range (a b : ℕ)

/-- The string a token denotes. -/
def renderTok : RangeTok → List Char
  | .single n => natToChars n
  | .range a b => natToChars a ++ '-' :: natToChars b

/-- The integers a token covers. -/
def tokInts : RangeTok → List ℤ
  | .single n => [(n : ℤ)]
  | .range a b => rangeList a b

/-- A comma-separated input string built from tokens. -/
def renderToks (ts : List RangeTok) : List Char :=
  List.intercalate [','] (ts.map renderTok)

/-! Helper lemmas: decimal digits and parsing. -/

lemma parseDigits_nil (a : ℕ) : parseDigits a [] = a := rfl

lemma parseDigits_cons (a : ℕ) (c : Char) (cs : List Char) :
    parseDigits a (c :: cs) = parseDigits (10 * a + digitVal c) cs := rfl

lemma digitChar_isDigit {d : ℕ} (hd : d < 10) :
    (Nat.digitChar d).isDigit = true := by
  interval_cases d <;> decide

lemma digitVal_digitChar {d : ℕ} (hd : d < 10) :
    digitVal (Nat.digitChar d) = d := by
  interval_cases d <;> decide

lemma isDigit_ne_dash {c : Char} (h : c.isDigit = true) : c ≠ '-' := by
  rintro rfl; exact absurd h (by decide)

lemma isDigit_ne_plus {c : Char} (h : c.isDigit = true) : c ≠ '+' := by
  rintro rfl; exact absurd h (by decide)

lemma isDigit_ne_comma {c : Char} (h : c.isDigit = true) : c ≠ ',' := by
  rintro rfl; exact absurd h (by decide)

lemma isDigit_not_ws {c : Char} (h : c.isDigit = true) :
    c.isWhitespace = false := by
  rcases hw : c.isWhitespace with _ | _
  · rfl
  · exfalso
    simp only [Char.isWhitespace, Bool.or_eq_true, decide_eq_true_eq] at hw
    have hc : c = ' ' ∨ c = '\t' ∨ c = '\r' ∨ c = '\n' := by tauto
    rcases hc with rfl | rfl | rfl | rfl <;> exact absurd h (by decide)

lemma parseDigits_append (xs ys : List Char) :
    ∀ a, parseDigits a (xs ++ ys) = parseDigits (parseDigits a xs) ys := by
  induction xs with
  | nil => intro a; rfl
  | cons c cs ih =>
    intro a
    show parseDigits (10 * a + digitVal c) (cs ++ ys) =
      parseDigits (parseDigits (10 * a + digitVal c) cs) ys
    exact ih _

lemma natDigitsAux_all_digits :
    ∀ fuel n, n < 10 ^ fuel → ∀ c ∈ natDigitsAux fuel n, c.isDigit = true := by
  intro fuel
  induction fuel with
  | zero => intro n hn c hc; simp [natDigitsAux] at hc
  | succ f ih =>
    intro n hn c hc
    rw [natDigitsAux] at hc
    by_cases h10 : n < 10
    · rw [if_pos h10] at hc
      rcases List.mem_singleton.mp hc with rfl
      exact digitChar_isDigit h10
    · rw [if_neg h10] at hc
      rcases List.mem_append.mp hc with hc | hc
      · exact ih (n / 10) (Nat.div_lt_of_lt_mul (by rw [pow_succ] at hn; omega)) c hc
      · rcases List.mem_singleton.mp hc with rfl
        exact digitChar_isDigit (Nat.mod_lt n (by omega))

lemma parseDigits_natDigitsAux :
    ∀ fuel n a, n < 10 ^ fuel →
      parseDigits a (natDigitsAux fuel n) =
        a * 10 ^ (natDigitsAux fuel n).length + n := by
  intro fuel
  induction fuel with
  | zero =>
    intro n a hn
    interval_cases n
    simp [natDigitsAux, parseDigits_nil]
  | succ f ih =>
    intro n a hn
    rw [natDigitsAux]
    by_cases h10 : n < 10
    · rw [if_pos h10]
      simp only [parseDigits_cons, parseDigits_nil, digitVal_digitChar h10,
        List.length_singleton, pow_one]
      ring
    · rw [if_neg h10]
      have hdiv : n / 10 < 10 ^ f :=
        Nat.div_lt_of_lt_mul (by rw [pow_succ] at hn; omega)
      rw [parseDigits_append, ih (n / 10) a hdiv]
      simp only [parseDigits_cons, parseDigits_nil, List.length_append,
        List.length_singleton]
      rw [digitVal_digitChar (Nat.mod_lt n (by omega) : n % 10 < 10), pow_succ,
        ← mul_assoc]
      set k := a * 10 ^ (natDigitsAux f (n / 10)).length
      omega

lemma natDigitsAux_ne_nil (fuel n : ℕ) (h : 0 < fuel) :
    natDigitsAux fuel n ≠ [] := by
  cases fuel with
  | zero => omega
  | succ f =>
    rw [natDigitsAux]
    by_cases h10 : n < 10
    · simp [h10]
    · simp [h10]

lemma lt_ten_pow_succ (n : ℕ) : n < 10 ^ (n + 1) :=
  lt_of_lt_of_le (Nat.lt_two_pow n)
    (le_trans (Nat.pow_le_pow_left (by omega) n)
      (Nat.pow_le_pow_right (by omega) (by omega)))

lemma natToChars_all_digits (n : ℕ) :
    ∀ c ∈ natToChars n, c.isDigit = true :=
  natDigitsAux_all_digits (n + 1) n (lt_ten_pow_succ n)

lemma natToChars_ne_nil (n : ℕ) : natToChars n ≠ [] :=
  natDigitsAux_ne_nil (n + 1) n (by omega)

lemma parseDigits_natToChars (n : ℕ) : parseDigits 0 (natToChars n) = n := by
  have := parseDigits_natDigitsAux (n + 1) n 0 (lt_ten_pow_succ n)
  simpa [natToChars] using this

/-! Helper lemmas: stripping, integer parsing and rendering. -/

lemma dropWhile_eq_self_of (p : Char → Bool) (l : List Char)
    (h : ∀ c ∈ l, p c = false) : l.dropWhile p = l := by
  cases l with
  | nil => rfl
  | cons c cs => rw [List.dropWhile_cons, h c (List.mem_cons_self c cs)]; simp

lemma pyStrip_eq_self {l : List Char}
    (h : ∀ c ∈ l, c.isWhitespace = false) : pyStrip l = l := by
  unfold pyStrip
  rw [dropWhile_eq_self_of _ _ h,
    dropWhile_eq_self_of _ _ (fun c hc => h c (List.mem_reverse.mp hc)),
    List.reverse_reverse]

lemma pyStrip_eq_nil {l : List Char}
    (h : ∀ c ∈ l, c.isWhitespace = true) : pyStrip l = [] := by
  unfold pyStrip
  rw [List.dropWhile_eq_nil_iff.mpr (fun c hc => h c hc)]
  simp

lemma pyInt?_of_digits {l : List Char} (hne : l ≠ [])
    (hd : ∀ c ∈ l, c.isDigit = true) :
    pyInt? l = some ((parseDigits 0 l : ℕ) : ℤ) := by
  obtain ⟨c, cs, rfl⟩ := List.exists_cons_of_ne_nil hne
  have hc : c.isDigit = true := hd c (List.mem_cons_self c cs)
  have hws : ∀ x ∈ c :: cs, x.isWhitespace = false :=
    fun x hx => isDigit_not_ws (hd x hx)
  unfold pyInt?
  rw [pyStrip_eq_self hws]
  simp only [if_neg (isDigit_ne_dash hc), if_neg (isDigit_ne_plus hc)]
  rw [if_pos]
  exact List.all_eq_true.mpr (fun x hx => hd x hx)

lemma pyInt?_natToChars (n : ℕ) : pyInt? (natToChars n) = some (n : ℤ) := by
  rw [pyInt?_of_digits (natToChars_ne_nil n) (natToChars_all_digits n),
    parseDigits_natToChars]

lemma pyIntRepr_of_nonneg {n : ℤ} (h : 0 ≤ n) :
    pyIntRepr n = natToChars n.toNat := by
  unfold pyIntRepr
  rw [if_neg (by omega)]

lemma pyIntRepr_all_digits {n : ℤ} (h : 0 ≤ n) :
    ∀ c ∈ pyIntRepr n, c.isDigit = true := by
  rw [pyIntRepr_of_nonneg h]
  exact natToChars_all_digits n.toNat

lemma pyIntRepr_ne_nil (n : ℤ) : pyIntRepr n ≠ [] := by
  unfold pyIntRepr
  by_cases h : n < 0
  · rw [if_pos h]; exact List.cons_ne_nil _ _
  · rw [if_neg h]; exact natToChars_ne_nil n.toNat

lemma pyInt?_pyIntRepr {n : ℤ} (h : 0 ≤ n) :
    pyInt? (pyIntRepr n) = some n := by
  rw [pyIntRepr_of_nonneg h, pyInt?_natToChars, Int.toNat_of_nonneg h]

/-! Helper lemmas: `rangeList`. -/

lemma mem_rangeList {a b n : ℤ} : n ∈ rangeList a b ↔ a ≤ n ∧ n ≤ b := by
  unfold rangeList
  simp only [List.mem_map, List.mem_range]
  constructor
  · rintro ⟨i, hi, rfl⟩
    omega
  · rintro ⟨h1, h2⟩
    exact ⟨(n - a).toNat, by omega, by omega⟩

lemma rangeList_self (a : ℤ) : rangeList a a = [a] := by
  unfold rangeList
  have : (a + 1 - a).toNat = 1 := by omega
  have h0 : List.range 1 = [0] := rfl
  rw [this, h0, List.map_singleton]
  norm_num

lemma rangeList_of_lt {a b : ℤ} (h : b < a) : rangeList a b = [] := by
  unfold rangeList
  have : (b + 1 - a).toNat = 0 := by omega
  rw [this]
  simp

lemma rangeList_snoc {a b : ℤ} (h : a ≤ b + 1) :
    rangeList a (b + 1) = rangeList a b ++ [b + 1] := by
  unfold rangeList
  have h1 : (b + 1 + 1 - a).toNat = (b + 1 - a).toNat + 1 := by omega
  rw [h1, List.range_succ, List.map_append]
  simp only [List.map_cons, List.map_nil, List.append_cancel_left_eq,
    List.cons.injEq, and_true]
  omega

lemma rangeList_sorted (a b : ℤ) : List.Sorted (· < ·) (rangeList a b) := by
  unfold rangeList
  exact (List.pairwise_map).mpr
    ((List.pairwise_lt_range _).imp (fun h => by omega))

/-! Helper lemmas: splitting and joining on a separator character. -/

lemma splitOn_eq_splitOnP (c : Char) (l : List Char) :
    l.splitOn c = l.splitOnP (· == c) := rfl

lemma splitOn_eq_single {l : List Char} {sep : Char} (h : sep ∉ l) :
    l.splitOn sep = [l] := by
  rw [splitOn_eq_splitOnP]
  exact List.splitOnP_eq_single _ _
    (fun x hx hbeq => h (eq_of_beq hbeq ▸ hx))

lemma splitOn_first {A B : List Char} {sep : Char} (hA : sep ∉ A) :
    (A ++ sep :: B).splitOn sep = A :: B.splitOn sep := by
  rw [splitOn_eq_splitOnP, splitOn_eq_splitOnP]
  exact List.splitOnP_first _ _
    (fun x hx => fun hbeq : (x == sep) = true => hA (eq_of_beq hbeq ▸ hx)) sep
    (beq_iff_eq.mpr rfl) B

lemma intercalate_singleton (s : List Char) (x : List Char) :
    List.intercalate s [x] = x := by
  simp [List.intercalate]

lemma intercalate_eq_head_append (c : Char) (x : List Char) :
    ∀ ps : List (List Char), ∃ r, List.intercalate [c] (x :: ps) = x ++ r := by
  intro ps
  cases ps with
  | nil => exact ⟨[], by rw [intercalate_singleton, List.append_nil]⟩
  | cons q qs =>
    refine ⟨c :: List.intercalate [c] (q :: qs), ?_⟩
    simp [List.intercalate]

/-! Helper lemmas: `expandPart` on well-formed tokens. -/

lemma pyIntRepr_natCast (n : ℕ) : pyIntRepr (n : ℤ) = natToChars n := by
  rw [pyIntRepr_of_nonneg (by positivity)]
  simp

lemma expandPart_single {n : ℤ} (h : 0 ≤ n) :
    expandPart (pyIntRepr n) = some [n] := by
  have hd := pyIntRepr_all_digits h
  have hstrip : pyStrip (pyIntRepr n) = pyIntRepr n :=
    pyStrip_eq_self (fun c hc => isDigit_not_ws (hd c hc))
  unfold expandPart
  rw [hstrip, if_neg (pyIntRepr_ne_nil n),
    if_neg (fun hmem => isDigit_ne_dash (hd _ hmem) rfl),
    pyInt?_pyIntRepr h]
  rfl

lemma expandPart_range {x y : ℤ} (hx : 0 ≤ x) (hy : 0 ≤ y) :
    expandPart (pyIntRepr x ++ '-' :: pyIntRepr y) = some (rangeList x y) := by
  have hdx := pyIntRepr_all_digits hx
  have hdy := pyIntRepr_all_digits hy
  have hws : ∀ c ∈ pyIntRepr x ++ '-' :: pyIntRepr y, c.isWhitespace = false := by
    intro c hc
    rcases List.mem_append.mp hc with hc | hc
    · exact isDigit_not_ws (hdx c hc)
    · rcases List.mem_cons.mp hc with rfl | hc
      · decide
      · exact isDigit_not_ws (hdy c hc)
  have hstrip := pyStrip_eq_self hws
  have hdashx : '-' ∉ pyIntRepr x :=
    fun hmem => isDigit_ne_dash (hdx _ hmem) rfl
  have hdashy : '-' ∉ pyIntRepr y :=
    fun hmem => isDigit_ne_dash (hdy _ hmem) rfl
  unfold expandPart
  rw [hstrip, if_neg (by simp), if_pos (by simp),
    splitOn_first hdashx, splitOn_eq_single hdashy]
  show (match pyInt? (pyIntRepr x), pyInt? (List.intercalate ['-'] [pyIntRepr y]) with
        | some ia, some ib => some (rangeList ia ib)
        | _, _ => none) = some (rangeList x y)
  rw [intercalate_singleton, pyInt?_pyIntRepr hx, pyInt?_pyIntRepr hy]

lemma expandPart_render {s p : ℤ} (h0 : 0 ≤ s) (hsp : s ≤ p) :
    expandPart (render s p) = some (rangeList s p) := by
  unfold render
  by_cases hne : s ≠ p
  · rw [if_pos hne]
    exact expandPart_range h0 (by omega)
  · rw [if_neg hne]
    push_neg at hne
    rw [expandPart_single h0, hne, rangeList_self]

/-! Helper lemmas: `compressGo` and the compress/expand round trip. -/

lemma expandParts_cons (p : List Char) (ps : List (List Char)) :
    expandParts (p :: ps) =
      match expandPart p, expandParts ps with
      | some xs, some rest => some (xs ++ rest)
      | _, _ => none := rfl

lemma render_ne_nil (s p : ℤ) : render s p ≠ [] := by
  unfold render
  by_cases h : s ≠ p
  · rw [if_pos h]
    intro hnil
    exact pyIntRepr_ne_nil s (List.append_eq_nil.mp hnil).1
  · rw [if_neg h]
    exact pyIntRepr_ne_nil s

lemma render_chars {s p : ℤ} (hs : 0 ≤ s) (hp : 0 ≤ p) :
    ∀ c ∈ render s p, c.isDigit = true ∨ c = '-' := by
  unfold render
  intro c hc
  by_cases h : s ≠ p
  · rw [if_pos h] at hc
    rcases List.mem_append.mp hc with hc | hc
    · exact Or.inl (pyIntRepr_all_digits hs c hc)
    · rcases List.mem_cons.mp hc with rfl | hc
      · exact Or.inr rfl
      · exact Or.inl (pyIntRepr_all_digits hp c hc)
  · rw [if_neg h] at hc
    exact Or.inl (pyIntRepr_all_digits hs c hc)

lemma compressGo_ne_nil : ∀ (l : List ℤ) (s p : ℤ), compressGo s p l ≠ [] := by
  intro l
  induction l with
  | nil => intro s p; exact List.cons_ne_nil _ _
  | cons n rest ih =>
    intro s p
    unfold compressGo
    by_cases h : n = p + 1
    · rw [if_pos h]; exact ih s n
    · rw [if_neg h]; exact List.cons_ne_nil _ _

lemma compressGo_parts_ne_nil :
    ∀ (l : List ℤ) (s p : ℤ), ∀ part ∈ compressGo s p l, part ≠ [] := by
  intro l
  induction l with
  | nil =>
    intro s p part hpart
    rcases List.mem_singleton.mp hpart with rfl
    exact render_ne_nil s p
  | cons n rest ih =>
    intro s p part hpart
    unfold compressGo at hpart
    by_cases h : n = p + 1
    · rw [if_pos h] at hpart; exact ih s n part hpart
    · rw [if_neg h] at hpart
      rcases List.mem_cons.mp hpart with rfl | hpart
      · exact render_ne_nil s p
      · exact ih n n part hpart

lemma compressGo_chars :
    ∀ (l : List ℤ) (s p : ℤ), 0 ≤ s → 0 ≤ p → (∀ x ∈ l, 0 ≤ x) →
      ∀ part ∈ compressGo s p l, ∀ c ∈ part, c.isDigit = true ∨ c = '-' := by
  intro l
  induction l with
  | nil =>
    intro s p hs hp _ part hpart
    rcases List.mem_singleton.mp hpart with rfl
    exact render_chars hs hp
  | cons n rest ih =>
    intro s p hs hp hl part hpart
    have hn : 0 ≤ n := hl n (List.mem_cons_self n rest)
    have hrest : ∀ x ∈ rest, 0 ≤ x := fun x hx => hl x (List.mem_cons_of_mem n hx)
    unfold compressGo at hpart
    by_cases h : n = p + 1
    · rw [if_pos h] at hpart
      exact ih s n hs hn hrest part hpart
    · rw [if_neg h] at hpart
      rcases List.mem_cons.mp hpart with rfl | hpart
      · exact render_chars hs hp
      · exact ih n n hn hn hrest part hpart

lemma expandParts_compressGo :
    ∀ (l : List ℤ) (s p : ℤ), 0 ≤ s → s ≤ p → List.Chain (· < ·) p l →
      expandParts (compressGo s p l) = some (rangeList s p ++ l) := by
  intro l
  induction l with
  | nil =>
    intro s p hs hsp _
    show expandParts [render s p] = some (rangeList s p ++ [])
    rw [expandParts_cons, expandPart_render hs hsp]
    show some (rangeList s p ++ []) = some (rangeList s p ++ [])
    rfl
  | cons n rest ih =>
    intro s p hs hsp hchain
    rcases List.chain_cons.mp hchain with ⟨hpn, hchain2⟩
    unfold compressGo
    by_cases h : n = p + 1
    · rw [if_pos h]
      rw [ih s n hs (by omega) hchain2, h, rangeList_snoc (by omega)]
      simp
    · rw [if_neg h]
      rw [expandParts_cons, expandPart_render hs hsp,
        ih n n (by omega) le_rfl hchain2]
      show some (rangeList s p ++ (rangeList n n ++ rest)) = _
      rw [rangeList_self]
      rfl

lemma sortedDedup_sorted_lt (L : List ℤ) :
    List.Sorted (· < ·) (sortedDedup L) :=
  Finset.sort_sorted_lt _

lemma mem_sortedDedup {L : List ℤ} {n : ℤ} : n ∈ sortedDedup L ↔ n ∈ L := by
  unfold sortedDedup
  rw [Finset.mem_sort, List.mem_toFinset]

lemma sortedDedup_eq_self {L : List ℤ} (h : List.Sorted (· < ·) L) :
    sortedDedup L = L := by
  have hnodup : L.Nodup := List.Pairwise.imp (fun hlt => ne_of_lt hlt) h
  have hle : L.Sorted (· ≤ ·) := List.Pairwise.imp (fun hlt => le_of_lt hlt) h
  exact (List.toFinset_sort (· ≤ ·) hnodup).mpr hle

lemma expand_compress_nonneg (L : List ℤ) (h : ∀ x ∈ L, 0 ≤ x) :
    expand_range_str (compress_ints L) = some (sortedDedup L) := by
  rcases hsd : sortedDedup L with _ | ⟨x, rest⟩
  · have hcomp : compress_ints L = [] := by
      unfold compress_ints; rw [hsd]
    rw [hcomp]
    rfl
  · have hcomp : compress_ints L = List.intercalate [','] (compressGo x x rest) := by
      unfold compress_ints; rw [hsd]
    have hmem : ∀ y ∈ x :: rest, 0 ≤ y := by
      intro y hy
      exact h y (mem_sortedDedup.mp (hsd ▸ hy))
    have hx0 : 0 ≤ x := hmem x (List.mem_cons_self x rest)
    have hsort : List.Sorted (· < ·) (x :: rest) := hsd ▸ sortedDedup_sorted_lt L
    have hchain : List.Chain (· < ·) x rest := List.chain_iff_pairwise.mpr hsort
    have hpne : compressGo x x rest ≠ [] := compressGo_ne_nil rest x x
    have hpartne := compressGo_parts_ne_nil rest x x
    have hnc : ∀ part ∈ compressGo x x rest, ',' ∉ part := by
      intro part hpart hcm
      rcases compressGo_chars rest x x hx0 hx0
        (fun y hy => hmem y (List.mem_cons_of_mem x hy)) part hpart ',' hcm with hd | hd
      · exact isDigit_ne_comma hd rfl
      · exact absurd hd (by decide)
    obtain ⟨p0, ps, hpp⟩ := List.exists_cons_of_ne_nil hpne
    obtain ⟨r, hr⟩ := intercalate_eq_head_append ',' p0 ps
    have hrne : List.intercalate [','] (compressGo x x rest) ≠ [] := by
      rw [hpp, hr]
      intro hnil
      exact hpartne p0 (hpp ▸ List.mem_cons_self p0 ps)
        (List.append_eq_nil.mp hnil).1
    rw [hcomp]
    unfold expand_range_str
    rw [if_neg hrne, List.splitOn_intercalate _ ',' hnc hpne,
      expandParts_compressGo rest x x hx0 le_rfl hchain, rangeList_self]
    rfl

/-! Helper lemmas: `continuation_scenes` and the per-row view of `main`. -/

lemma continuation_scenes_some {existing : Finset ℤ} {base m : ℤ}
    {nb : Option ℤ} (hne : existing ≠ ∅) :
    continuation_scenes existing base nb (some m) =
      if contStop nb m < base + 1 then []
      else (rangeList (base + 1) (contStop nb m)).filter
        (fun n => n ∈ existing) := by
  show (if existing = ∅ then []
      else if contStop nb m < base + 1 then []
      else (rangeList (base + 1) (contStop nb m)).filter
        (fun n => n ∈ existing)) =
    if contStop nb m < base + 1 then []
    else (rangeList (base + 1) (contStop nb m)).filter (fun n => n ∈ existing)
  rw [if_neg hne]

lemma continuation_scenes_bounds {existing : Finset ℤ} {b n : ℤ}
    {nb ms : Option ℤ} (h : n ∈ continuation_scenes existing b nb ms) :
    b + 1 ≤ n ∧ (∀ v, nb = some v → n ≤ v - 1) := by
  cases ms with
  | none => exact absurd h (by simp [continuation_scenes])
  | some m =>
    by_cases hne : existing = ∅
    · rw [continuation_scenes, if_pos hne] at h
      exact absurd h (by simp)
    · rw [continuation_scenes_some hne] at h
      by_cases hlt : contStop nb m < b + 1
      · rw [if_pos hlt] at h
        exact absurd h (by simp)
      · rw [if_neg hlt] at h
        have hr := (List.mem_filter.mp h).1
        have hb := mem_rangeList.mp hr
        refine ⟨hb.1, ?_⟩
        rintro v rfl
        exact hb.2

lemma row_continuation_drop {bases : List ℤ} {i : ℕ} (hi : i < bases.length)
    (existing : Finset ℤ) (ms : Option ℤ) :
    row_continuation bases existing ms i =
      continuation_scenes existing (bases.get ⟨i, hi⟩)
        (bases.drop (i + 1)).head? ms := by
  unfold row_continuation
  rw [List.drop_eq_get_cons hi]

lemma head?_drop_of_lt {bases : List ℤ} {k : ℕ} (hk : k < bases.length) :
    (bases.drop k).head? = some (bases.get ⟨k, hk⟩) := by
  rw [List.drop_eq_get_cons hk]
  rfl

lemma row_disjoint_aux (bases : List ℤ) (existing : Finset ℤ) (ms : Option ℤ)
    (hsorted : List.Sorted (· ≤ ·) bases) {i j : ℕ} (hij : i < j)
    (hj : j < bases.length) {n : ℤ}
    (hni : n ∈ row_continuation bases existing ms i)
    (hnj : n ∈ row_continuation bases existing ms j) : False := by
  have hi : i < bases.length := lt_trans hij hj
  have hi1 : i + 1 < bases.length := by omega
  rw [row_continuation_drop hi existing ms] at hni
  rw [row_continuation_drop hj existing ms] at hnj
  have hbi := continuation_scenes_bounds hni
  have hbj := continuation_scenes_bounds hnj
  have hnext := hbi.2 (bases.get ⟨i + 1, hi1⟩) (head?_drop_of_lt hi1)
  have hmono : bases.get ⟨i + 1, hi1⟩ ≤ bases.get ⟨j, hj⟩ :=
    hsorted.rel_get_of_le (by exact Fin.mk_le_mk.mpr (by omega))
  have := hbj.1
  omega

/-! Helper lemmas: range-notation tokens. -/

lemma expandPart_natToChars (n : ℕ) :
    expandPart (natToChars n) = some [(n : ℤ)] := by
  rw [← pyIntRepr_natCast]
  exact expandPart_single (by positivity)

lemma expandPart_nat_range (a b : ℕ) :
    expandPart (natToChars a ++ '-' :: natToChars b) =
      some (rangeList (a : ℤ) (b : ℤ)) := by
  rw [← pyIntRepr_natCast a, ← pyIntRepr_natCast b]
  exact expandPart_range (by positivity) (by positivity)

lemma expandPart_renderTok (t : RangeTok) :
    expandPart (renderTok t) = some (tokInts t) := by
  cases t with
  | single n => exact expandPart_natToChars n
  | range a b => exact expandPart_nat_range a b

lemma renderTok_chars (t : RangeTok) :
    ∀ c ∈ renderTok t, c.isDigit = true ∨ c = '-' := by
  cases t with
  | single n => exact fun c hc => Or.inl (natToChars_all_digits n c hc)
  | range a b =>
    intro c hc
    rcases List.mem_append.mp hc with hc | hc
    · exact Or.inl (natToChars_all_digits a c hc)
    · rcases List.mem_cons.mp hc with rfl | hc
      · exact Or.inr rfl
      · exact Or.inl (natToChars_all_digits b c hc)

lemma renderTok_ne_nil (t : RangeTok) : renderTok t ≠ [] := by
  cases t with
  | single n => exact natToChars_ne_nil n
  | range a b =>
    intro hnil
    exact natToChars_ne_nil a (List.append_eq_nil.mp hnil).1

lemma comma_not_mem_renderTok (t : RangeTok) : ',' ∉ renderTok t := by
  intro hmem
  rcases renderTok_chars t ',' hmem with hd | hd
  · exact isDigit_ne_comma hd rfl
  · exact absurd hd (by decide)

lemma expandParts_map_renderTok (ts : List RangeTok) :
    expandParts (ts.map renderTok) = some ((ts.map tokInts).flatten) := by
  induction ts with
  | nil => rfl
  | cons t ts2 ih =>
    rw [List.map_cons, expandParts_cons, expandPart_renderTok t, ih]
    rfl

/-! Helper lemmas: the source compressor agrees with the spec compressor. -/

lemma render_eq_spec (s p : ℤ) : render s p = spec_render_run (s, p) := by
  show (if s ≠ p then pyIntRepr s ++ '-' :: pyIntRepr p else pyIntRepr s) =
    (if s = p then pyIntRepr s else pyIntRepr s ++ '-' :: pyIntRepr p)
  by_cases h : s = p
  · rw [if_neg (by simp [h]), if_pos h]
  · rw [if_pos h, if_neg h]

lemma compressGo_eq_spec :
    ∀ (l : List ℤ) (s p : ℤ),
      compressGo s p l = (spec_runs_go s p l).map spec_render_run := by
  intro l
  induction l with
  | nil => intro s p; rw [compressGo, spec_runs_go, List.map_singleton, render_eq_spec]
  | cons n rest ih =>
    intro s p
    rw [compressGo, spec_runs_go]
    by_cases h : n = p + 1
    · rw [if_pos h, if_pos h, ih]
    · rw [if_neg h, if_neg h, List.map_cons, ih, render_eq_spec]

lemma glue_deletions_cons (f : ℤ → Bool) (d : ℤ) (rest : List ℤ) (rc : ℤ) :
    glue_deletions f (d :: rest) rc =
      if rc = 0 then (d :: rest).filter (fun n => n ≠ d ∧ f n = true)
      else [] := rfl

lemma write_glue_csv_cons (b : ℤ) (bs : List ℤ) (c : List ℤ)
    (cs : List (List ℤ)) :
    write_glue_csv (b :: bs) (c :: cs) =
      (if c ≠ [] then pyIntRepr b ++ ',' :: compress_ints c else pyIntRepr b)
        :: write_glue_csv bs cs := rfl

lemma write_glue_csv_get? :
    ∀ (bases : List ℤ) (cont_lists : List (List ℤ)),
      bases.length = cont_lists.length →
      ∀ i b c, bases.get? i = some b → cont_lists.get? i = some c →
        (write_glue_csv bases cont_lists).get? i =
          some (if c = [] then pyIntRepr b
            else pyIntRepr b ++ ',' :: compress_ints c) := by
  intro bases
  induction bases with
  | nil => intro cls h i b c hb; exact absurd hb (by simp)
  | cons b0 bs ih =>
    intro cls h i b c hb hc
    cases cls with
    | nil => simp at h
    | cons c0 cs =>
      rw [write_glue_csv_cons]
      cases i with
      | zero =>
        simp only [List.get?_cons_zero, Option.some.injEq] at hb hc
        rw [List.get?_cons_zero, ← hb, ← hc]
        by_cases hc0 : c0 = []
        · rw [if_neg (by simp [hc0]), if_pos hc0]
        · rw [if_pos hc0, if_neg hc0]
      | succ i2 =>
        rw [List.get?_cons_succ] at hb hc
        rw [List.get?_cons_succ]
        exact ih cs (by simpa using h) i2 b c hb hc

/-! Claim theorems. -/

/-- C1: `continuation_scenes` returns the empty list when `existing` is empty
or `max_scene` is absent; otherwise, with `start = base + 1` and
`end = next_base - 1` when `next_base` is present (else `end = max_scene`),
it returns the empty list when `end < start` and otherwise the ascending
list of exactly those integers in `[start, end]` that are members of
`existing`. -/
theorem continuation_scenes_correct (existing : Finset ℤ) (base : ℤ)
    (next_base max_scene : Option ℤ) :
    ((existing = ∅ ∨ max_scene = none) →
      continuation_scenes existing base next_base max_scene = []) ∧
    (∀ m : ℤ, max_scene = some m → existing ≠ ∅ →
      ((contStop next_base m < base + 1 →
          continuation_scenes existing base next_base max_scene = []) ∧
        List.Sorted (· < ·)
          (continuation_scenes existing base next_base max_scene) ∧
        (∀ n : ℤ,
          n ∈ continuation_scenes existing base next_base max_scene ↔
            (base + 1 ≤ n ∧ n ≤ contStop next_base m ∧ n ∈ existing)))) := by
  constructor
  · rintro (he | hm)
    · cases max_scene with
      | none => rfl
      | some m => rw [continuation_scenes, if_pos he]
    · subst hm; rfl
  · rintro m rfl hne
    rw [continuation_scenes_some hne]
    by_cases hlt : contStop next_base m < base + 1
    · rw [if_pos hlt]
      refine ⟨fun _ => rfl, List.sorted_nil, fun n => ?_⟩
      simp only [List.not_mem_nil, false_iff]
      rintro ⟨h1, h2, _⟩
      omega
    · rw [if_neg hlt]
      refine ⟨fun hc => absurd hc hlt, List.Pairwise.filter _ (rangeList_sorted _ _),
        fun n => ?_⟩
      simp only [List.mem_filter, mem_rangeList, decide_eq_true_eq, and_assoc]

/-- Witness for C1 at the spec's worked example
(`base = 5`, `next_base = 9`, `existing = {6,7,9,10}`, `max_scene = 10`). -/
theorem continuation_scenes_correct_witness :
    (6 : ℤ) ∈ continuation_scenes ({6, 7, 9, 10} : Finset ℤ) 5 (some 9) (some 10) ↔
      (5 + 1 ≤ (6 : ℤ) ∧ (6 : ℤ) ≤ contStop (some 9) 10 ∧
        (6 : ℤ) ∈ ({6, 7, 9, 10} : Finset ℤ)) :=
  ((continuation_scenes_correct {6, 7, 9, 10} 5 (some 9) (some 10)).2 10 rfl
    (by decide)).2.2 6

/-- C2 counterexample: for the list `[-1]` (non-empty, ascending, no
duplicates) the round trip raises instead of returning the list —
`compress_ints [-1]` renders `"-1"`, whose leading `-` is then parsed as a
range separator, so `int('')` fails. -/
theorem roundtrip_int_counterexample :
    expand_range_str (compress_ints [(-1 : ℤ)]) = none ∧
      expand_range_str (compress_ints [(-1 : ℤ)]) ≠ some [(-1 : ℤ)] := by
  have h : sortedDedup [(-1 : ℤ)] = [(-1 : ℤ)] := sortedDedup_eq_self (by decide)
  have hc : expand_range_str (compress_ints [(-1 : ℤ)]) = none := by
    unfold compress_ints
    rw [h]
    decide
  exact ⟨hc, by rw [hc]; exact fun hcon => Option.noConfusion hcon⟩

/-- C2 amended: for every non-empty ascending duplicate-free list of
NON-NEGATIVE integers, `expand_range_str (compress_ints L) = L`; negative
entries make the round trip fail, since their rendered minus sign is
re-parsed as a range separator. -/
theorem expand_compress_inverse_nonneg (L : List ℤ) (hne : L ≠ [])
    (hsorted : List.Sorted (· < ·) L) (h : ∀ x ∈ L, 0 ≤ x) :
    expand_range_str (compress_ints L) = some L := by
  rw [expand_compress_nonneg L h, sortedDedup_eq_self hsorted]

/-- Witness for C2 amended at `L = [0, 2]`. -/
theorem expand_compress_inverse_nonneg_witness :
    expand_range_str (compress_ints [(0 : ℤ), 2]) = some [(0 : ℤ), 2] :=
  expand_compress_inverse_nonneg [0, 2] (by decide) (by decide) (by decide)

/-- C3: `compress_ints` produces the comma-joined rendering of the maximal
consecutive runs of the list's distinct values in ascending order (runs of
length at least 2 as `a-b`, singletons as `a`); the empty list yields the
empty string, and `compress_ints [2,3,4,6,8,9] = "2-4,6,8-9"`. -/
theorem compress_ints_matches_spec (nums : List ℤ) :
    compress_ints nums = spec_compress nums ∧
    compress_ints [] = [] ∧
    compress_ints [2, 3, 4, 6, 8, 9] =
      ['2', '-', '4', ',', '6', ',', '8', '-', '9'] := by
  refine ⟨?_, ?_, ?_⟩
  · unfold compress_ints spec_compress
    rcases hsd : sortedDedup nums with _ | ⟨x, rest⟩
    · rfl
    · show List.intercalate [','] (compressGo x x rest) =
        List.intercalate [','] ((spec_runs_go x x rest).map spec_render_run)
      rw [compressGo_eq_spec]
  · have h : sortedDedup ([] : List ℤ) = [] := sortedDedup_eq_self (by decide)
    unfold compress_ints
    rw [h]
  · have h : sortedDedup [(2 : ℤ), 3, 4, 6, 8, 9] = [2, 3, 4, 6, 8, 9] :=
      sortedDedup_eq_self (by decide)
    unfold compress_ints
    rw [h]
    decide

/-- C4: for bases sorted in ascending order within one institution, where
each row's `next_base` is the following row's base (absent for the last
row), the continuation lists computed for distinct rows are pairwise
disjoint for any fixed `existing` set and `max_scene`. -/
theorem continuation_rows_disjoint (bases : List ℤ) (existing : Finset ℤ)
    (ms : Option ℤ) (hsorted : List.Sorted (· ≤ ·) bases) (i j : ℕ)
    (hi : i < bases.length) (hj : j < bases.length) (hij : i ≠ j) (n : ℤ)
    (hni : n ∈ row_continuation bases existing ms i) :
    n ∉ row_continuation bases existing ms j := by
  intro hnj
  rcases Nat.lt_or_ge i j with hlt | hge
  · exact row_disjoint_aux bases existing ms hsorted hlt hj hni hnj
  · have hgt : j < i := by omega
    exact row_disjoint_aux bases existing ms hsorted hgt hi hnj hni

/-- Witness for C4: with bases `[5, 9]`, scene `6` lies in row 0's
continuation list and therefore not in row 1's. -/
theorem continuation_rows_disjoint_witness :
    (6 : ℤ) ∉ row_continuation [5, 9] ({6, 7, 9, 10} : Finset ℤ) (some 10) 1 :=
  continuation_rows_disjoint [5, 9] {6, 7, 9, 10} (some 10) (by decide)
    0 1 (by decide) (by decide) (by decide) 6 (by decide)

/-- C5: `choose_image_for_clip` returns the image path of `base` when it
exists, else the image path of the first continuation scene when that
exists, else `none`; a `none` result makes the caller record an empty
labeling output for the row (no exception is modelled anywhere — the
function is total); and on a sorted continuation list the first element is
the smallest. -/
theorem choose_image_spec (f : List Char → Bool) (dir : List Char)
    (base : ℤ) (cont : List ℤ) (llm : List Char) :
    (f (scene_jpg_path dir base) = true →
      choose_image_for_clip f dir base cont = some (scene_jpg_path dir base)) ∧
    (f (scene_jpg_path dir base) = false → ∀ c rest, cont = c :: rest →
      f (scene_jpg_path dir c) = true →
      choose_image_for_clip f dir base cont = some (scene_jpg_path dir c)) ∧
    (f (scene_jpg_path dir base) = false →
      (∀ c rest, cont = c :: rest → f (scene_jpg_path dir c) = false) →
      choose_image_for_clip f dir base cont = none) ∧
    (choose_image_for_clip f dir base cont = none →
      llm_row_output f
        (img_path_entry (choose_image_for_clip f dir base cont)) llm = []) ∧
    (∀ c rest, cont = c :: rest → List.Sorted (· ≤ ·) cont →
      ∀ x ∈ cont, c ≤ x) := by
  refine ⟨?_, ?_, ?_, ?_, ?_⟩
  · intro hp
    simp [choose_image_for_clip, hp]
  · intro hp c rest hc hcimg
    subst hc
    simp [choose_image_for_clip, hp, hcimg]
  · intro hp hnone
    cases cont with
    | nil => simp [choose_image_for_clip, hp]
    | cons c rest => simp [choose_image_for_clip, hp, hnone c rest rfl]
  · intro hnone
    rw [hnone]
    simp [img_path_entry, llm_row_output]
  · rintro c rest rfl hs x hx
    rcases List.mem_cons.mp hx with rfl | hx
    · exact le_refl x
    · exact (List.sorted_cons.mp hs).1 x hx

/-- Witness for C5: when the base image exists it is chosen. -/
theorem choose_image_spec_witness :
    choose_image_for_clip (fun _ => true) [] 0 [] =
      some (scene_jpg_path [] 0) :=
  (choose_image_spec (fun _ => true) [] 0 [] []).1 rfl

/-- C7: in the glue loop, source scene files (numbers other than the
record's destination, its first number) are deleted only when the
concatenation process exits with code 0; on a nonzero exit code the record
deletes nothing, so no data is lost. -/
theorem glue_preserves_sources (f : ℤ → Bool) (scene_numbers : List ℤ)
    (returncode : ℤ) :
    (returncode ≠ 0 → glue_deletions f scene_numbers returncode = []) ∧
    (∀ d rest, scene_numbers = d :: rest →
      ∀ n ∈ glue_deletions f scene_numbers returncode,
        returncode = 0 ∧ n ≠ d) := by
  constructor
  · intro hrc
    cases scene_numbers with
    | nil => rfl
    | cons d rest => rw [glue_deletions_cons, if_neg hrc]
  · rintro d rest rfl n hn
    rw [glue_deletions_cons] at hn
    by_cases hrc : returncode = 0
    · rw [if_pos hrc] at hn
      have hmem := List.mem_filter.mp hn
      have hcond := of_decide_eq_true hmem.2
      exact ⟨hrc, hcond.1⟩
    · rw [if_neg hrc] at hn
      exact absurd hn (List.not_mem_nil n)

/-- Witness for C7: a failed concatenation (`returncode = 1`) deletes
nothing. -/
theorem glue_preserves_sources_witness :
    glue_deletions (fun _ => true) [1, 2] 1 = [] :=
  (glue_preserves_sources (fun _ => true) [1, 2] 1).1 (by decide)

/-- C6 counterexample: the input `"5,2"` consists of two bare-integer
tokens but expands to `[5, 2]`, which is not ascending; and the single
bare-integer token `"-1"` makes expansion fail, because the minus sign is
taken for a range separator. -/
theorem expand_order_counterexample :
    expand_range_str ['5', ',', '2'] = some [5, 2] ∧
    ¬ List.Sorted (· ≤ ·) [(5 : ℤ), 2] ∧
    expand_range_str ['-', '1'] = none :=
  ⟨by decide, by decide, by decide⟩

/-- C6 amended: for every comma-separated input built from tokens that are
bare NON-NEGATIVE integers or `a-b` ranges of non-negative integers,
`expand_range_str` succeeds and returns the concatenation, in token order,
of each token's covered integers (hence an ascending list whenever the
tokens themselves are given in ascending order); the empty string yields
the empty list. -/
theorem expand_renderToks_covers (ts : List RangeTok) :
    expand_range_str (renderToks ts) = some ((ts.map tokInts).flatten) := by
  cases ts with
  | nil => rfl
  | cons t ts2 =>
    have hmapne : (t :: ts2).map renderTok ≠ [] := by simp
    have hnc : ∀ l ∈ (t :: ts2).map renderTok, ',' ∉ l := by
      intro l hl
      rcases List.mem_map.mp hl with ⟨t2, _, rfl⟩
      exact comma_not_mem_renderTok t2
    obtain ⟨r, hr⟩ :=
      intercalate_eq_head_append ',' (renderTok t) (ts2.map renderTok)
    have hne : renderToks (t :: ts2) ≠ [] := by
      unfold renderToks
      rw [List.map_cons, hr]
      intro hnil
      exact renderTok_ne_nil t (List.append_eq_nil.mp hnil).1
    unfold renderToks at hne ⊢
    unfold expand_range_str
    rw [if_neg hne, List.splitOn_intercalate _ ',' hnc hmapne,
      expandParts_map_renderTok]

/-- C8: `write_glue_csv` writes one line per clip row, in order: `base` for
an empty continuation list and `base,compress_ints(cont)` otherwise. -/
theorem write_glue_csv_lines (bases : List ℤ) (cont_lists : List (List ℤ))
    (h : bases.length = cont_lists.length) :
    (write_glue_csv bases cont_lists).length = bases.length ∧
    (∀ i b c, bases.get? i = some b → cont_lists.get? i = some c →
      (write_glue_csv bases cont_lists).get? i =
        some (if c = [] then pyIntRepr b
          else pyIntRepr b ++ ',' :: compress_ints c)) := by
  constructor
  · unfold write_glue_csv
    rw [List.length_map, List.length_zip, h, min_self]
  · exact write_glue_csv_get? bases cont_lists h

/-- Witness for C8 at the spec's example record `7,9-11,14`. -/
theorem write_glue_csv_lines_witness :
    (write_glue_csv [7] [[9, 10, 11, 14]]).get? 0 =
      some ['7', ',', '9', '-', '1', '1', ',', '1', '4'] := by
  have hsd : sortedDedup [(9 : ℤ), 10, 11, 14] = [9, 10, 11, 14] :=
    sortedDedup_eq_self (by decide)
  have hc : compress_ints [(9 : ℤ), 10, 11, 14] =
      ['9', '-', '1', '1', ',', '1', '4'] := by
    unfold compress_ints
    rw [hsd]
    decide
  have hline := (write_glue_csv_lines [7] [[9, 10, 11, 14]] rfl).2 0 7
    [9, 10, 11, 14] rfl rfl
  rw [if_neg (by decide), hc, (by decide : pyIntRepr (7 : ℤ) = ['7'])] at hline
  exact hline

/-- C9: for every list of non-negative integers, in any order and possibly
with duplicates, expanding the compressed string returns the ascending
duplicate-free list of the input's elements — the round trip normalizes
arbitrary input. -/
theorem expand_compress_normalizes (L : List ℤ) (h : ∀ x ∈ L, 0 ≤ x) :
    expand_range_str (compress_ints L) = some (sortedDedup L) ∧
    List.Sorted (· < ·) (sortedDedup L) ∧
    (∀ n : ℤ, n ∈ sortedDedup L ↔ n ∈ L) :=
  ⟨expand_compress_nonneg L h, sortedDedup_sorted_lt L,
    fun _ => mem_sortedDedup⟩

/-- Witness for C9 at the unsorted duplicated input `[3, 1, 1]`. -/
theorem expand_compress_normalizes_witness :
    expand_range_str (compress_ints [(3 : ℤ), 1, 1]) = some [1, 3] := by
  have h1 : [(3 : ℤ), 1, 1].toFinset = [(1 : ℤ), 3].toFinset := by decide
  have hsd : sortedDedup [(3 : ℤ), 1, 1] = [1, 3] := by
    unfold sortedDedup
    rw [h1]
    exact sortedDedup_eq_self (by decide)
  have h2 := (expand_compress_normalizes [(3 : ℤ), 1, 1] (by decide)).1
  rw [hsd] at h2
  exact h2

/-- C10: a range token `a-b` of non-negative integers with `a > b` expands
without failure to no integers at all, and a token that is empty after
trimming whitespace is skipped without error. -/
theorem expand_range_str_tolerant (a b k : ℕ) (hab : b < a) (ws : List Char)
    (hws : ∀ c ∈ ws, c.isWhitespace = true) :
    expand_range_str (natToChars a ++ '-' :: natToChars b) = some [] ∧
    expand_range_str (ws ++ ',' :: natToChars k) = some [(k : ℤ)] := by
  constructor
  · have hne : natToChars a ++ '-' :: natToChars b ≠ [] := by
      intro hnil
      exact natToChars_ne_nil a (List.append_eq_nil.mp hnil).1
    have hnc : ',' ∉ natToChars a ++ '-' :: natToChars b := by
      intro hmem
      rcases List.mem_append.mp hmem with hm | hm
      · exact isDigit_ne_comma (natToChars_all_digits a ',' hm) rfl
      · rcases List.mem_cons.mp hm with he | hm
        · exact absurd he (by decide)
        · exact isDigit_ne_comma (natToChars_all_digits b ',' hm) rfl
    unfold expand_range_str
    rw [if_neg hne, splitOn_eq_single hnc, expandParts_cons,
      expandPart_nat_range,
      rangeList_of_lt (show (b : ℤ) < (a : ℤ) by exact_mod_cast hab)]
    rfl
  · have hcomma_ws : ',' ∉ ws := fun hm => absurd (hws ',' hm) (by decide)
    have hne : ws ++ ',' :: natToChars k ≠ [] := by
      intro hnil
      exact List.cons_ne_nil ',' _ (List.append_eq_nil.mp hnil).2
    have hnck : ',' ∉ natToChars k :=
      fun hm => isDigit_ne_comma (natToChars_all_digits k ',' hm) rfl
    have hwspart : expandPart ws = some [] := by
      unfold expandPart
      rw [pyStrip_eq_nil hws, if_pos rfl]
    unfold expand_range_str
    rw [if_neg hne, splitOn_first hcomma_ws, splitOn_eq_single hnck,
      expandParts_cons, hwspart, expandParts_cons, expandPart_natToChars]
    rfl

/-- Witness for C10 at the reversed range `2-1` and a blank token. -/
theorem expand_range_str_tolerant_witness :
    expand_range_str (natToChars 2 ++ '-' :: natToChars 1) = some [] ∧
    expand_range_str ([' '] ++ ',' :: natToChars 3) = some [(3 : ℤ)] :=
  expand_range_str_tolerant 2 1 3 (by decide) [' '] (by decide)

end VideoDownloader
